import Mathlib

/-!
Shallow embedding of `mbutil/util.py` (an MBTiles import/export tool) and a
verification of the specification claims about it.

Modelling conventions:
* Python `bytes` payloads are modeled as `List Nat`.
* Python integers are modeled as `Int`, or as `Nat` where the source can only
  produce non-negative values (digit-stripped directory names, surrogate ids).
* SQLite tables are modeled as Lean lists of rows in insertion order; in a
  freshly populated `tiles` table the rowids are consecutive from 1, so the
  rowid-window select in `compression_do` is a `drop`/`take` slice.
* Python `sorted(...)` is modeled by the stable `List.insertionSort`;
  Python's timsort is stable, and for a total preorder any two stable sorts
  agree extensionally.
* Logging is ignored except for the warnings the spec talks about, which are
  modeled as explicit events, as are row inserts and transaction commits.
-/

/-- Row flip between XYZ and TMS addressing, `flip_y` from the source:
`(2**zoom-1) - y`. -/
def flip_y (zoom : Nat) (y : Int) : Int :=
  ((2 : Int) ^ zoom - 1) - y

/-- One row of the `tiles` table: `(zoom_level, tile_column, tile_row,
tile_data)`.  Zoom and column come from digit-stripped directory names, hence
`Nat`; the row can in principle be negative (Python `int` of a stem such as
`-5`), hence `Int`. -/
structure TileRow where
  zoom : Nat
  col : Nat
  row : Int
  data : List Nat
deriving DecidableEq

/-- One row of the dedup `map` table: `(zoom_level, tile_column, tile_row,
tile_id)`. -/
structure MapRow where
  zoom : Nat
  col : Nat
  row : Int
  tile_id : Nat
deriving DecidableEq

/-- The state built by `compression_do`: the `images` and `map` tables plus the
counters `last_id`, `overlapping`, `unique`, `total` and the number of
`con.commit()` calls issued.  The source inserts `images.tile_id` as
`str(last_id)`; the integer column affinity of SQLite turns it back into the
integer, so it is modeled as `Nat`. -/
structure DedupResult where
  images : List (Nat × List Nat)
  mapRows : List MapRow
  last_id : Nat
  overlapping : Nat
  uniqueCount : Nat
  total : Nat
  commits : Nat
deriving DecidableEq

/-- One iteration of the inner `for r in rows` loop of `compression_do`.  The
source keeps two lists `ids` and `files` that are always appended in lockstep
and queried by `ids[files.index(r[3])]`; they are modeled as the single
association list `seen` of `(payload, id)` pairs, where `find?` returns the
first exact byte match just as `files.index` does. -/
def dedupRow : DedupResult × List (List Nat × Nat) → TileRow →
    DedupResult × List (List Nat × Nat)
  | (s, seen), r =>
    match seen.find? (fun pr => pr.1 == r.data) with
    | some pr =>
        ({ s with
            total := s.total + 1
            overlapping := s.overlapping + 1
            mapRows := s.mapRows ++ [⟨r.zoom, r.col, r.row, pr.2⟩] }, seen)
    | none =>
        ({ s with
            total := s.total + 1
            uniqueCount := s.uniqueCount + 1
            last_id := s.last_id + 1
            images := s.images ++ [(s.last_id + 1, r.data)]
            mapRows := s.mapRows ++ [⟨r.zoom, r.col, r.row, s.last_id + 1⟩] },
          seen ++ [(r.data, s.last_id + 1)])

/-- One round of the outer loop of `compression_do`: the lists `ids` and
`files` are reinitialized to empty, the batch of rows is processed, and the
batch is committed. -/
def dedupBatch (s : DedupResult) (rows : List TileRow) : DedupResult :=
  let t := (rows.foldl dedupRow (s, [])).1
  { t with commits := t.commits + 1 }

/-- The outer loop `for i in range(total_tiles // chunk + 1)` of
`compression_do`; round `i` selects the rows with
`rowid > i*chunk and rowid <= (i+1)*chunk`, i.e. the slice
`(tiles.drop (i*chunk)).take chunk` of a freshly populated table. -/
def foldBatches (chunk : Nat) (tiles : List TileRow) (s : DedupResult) : DedupResult :=
  (List.range (tiles.length / chunk + 1)).foldl
    (fun t i => dedupBatch t ((tiles.drop (i * chunk)).take chunk)) s

/-- The whole deduplication pass `compression_do(cur, con, chunk, silent)`,
starting from empty `images`/`map` tables and all counters zero. -/
def compression_do (tiles : List TileRow) (chunk : Nat) : DedupResult :=
  foldBatches chunk tiles ⟨[], [], 0, 0, 0, 0, 0⟩

/-- Looking a surrogate id up in the `images` table (the join
`map JOIN images ON images.tile_id = map.tile_id` created by
`compression_finalize`, restricted to one map row). -/
def lookupImage (images : List (Nat × List Nat)) (id : Nat) : Option (List Nat) :=
  (images.find? (fun pr => pr.1 == id)).map (·.2)

/-- Lexicographic (code-point) comparison of two character lists; this is how
Python compares strings in `sorted(...)`. -/
def lexLeChars : List Char → List Char → Bool
  | [], _ => true
  | _ :: _, [] => false
  | a :: as, b :: bs => if a = b then lexLeChars as bs else decide (a < b)

/-- Python `os.path.splitext`: the extension starts at the last dot, except
that the run of leading dots of the name never starts an extension. -/
def splitext (s : String) : String × String :=
  let cs := s.data
  let lead := (cs.takeWhile (fun c => c = '.')).length
  if '.' ∈ cs.drop lead then
    let extLen := (cs.reverse.takeWhile (fun c => ¬ c = '.')).length
    (⟨cs.take (cs.length - extLen - 1)⟩, ⟨cs.drop (cs.length - extLen - 1)⟩)
  else (s, "")

/-- Value of a list of ASCII digits, most significant first. -/
def digitsVal (cs : List Char) : Nat :=
  cs.foldl (fun acc c => 10 * acc + (c.toNat - '0'.toNat)) 0

/-- Parse of a nonempty all-digit string; `none` models `ValueError`. -/
def digitsNat? (cs : List Char) : Option Nat :=
  if cs ≠ [] ∧ cs.all Char.isDigit then some (digitsVal cs) else none

/-- Python `int(s)` restricted to the shapes in play: an optional sign followed
by a nonempty digit run (the whitespace and underscore refinements of Python's
grammar are not modeled).  `none` models the `ValueError` raised otherwise. -/
def pyInt? (cs : List Char) : Option Int :=
  match cs with
  | '-' :: rest => (digitsNat? rest).map (fun n => -(n : Int))
  | '+' :: rest => (digitsNat? rest).map (fun n => (n : Int))
  | _ => (digitsNat? cs).map (fun n => (n : Int))

/-- The idiom `int(re.sub(r"[^\d]", "", name))` used for zoom and column
directory names: strip every non-digit, then parse; stripping everything
leaves the empty string, whose parse raises `ValueError` (`none`). -/
def parseDigits? (s : String) : Option Nat :=
  digitsNat? (s.data.filter Char.isDigit)

/-- Python `name.startswith(".")`. -/
def pyStartsWithDot (s : String) : Bool :=
  match s.data with
  | [] => false
  | c :: _ => decide (c = '.')

/-- A tile file inside a column directory of the source tree. -/
structure TreeFile where
  name : String
  content : List Nat
deriving DecidableEq

/-- A column directory of the source tree. -/
structure ColDir where
  name : String
  files : List TreeFile
deriving DecidableEq

/-- A zoom directory of the source tree. -/
structure ZoomDir where
  name : String
  cols : List ColDir
deriving DecidableEq

/-- A source tree: an optional root `metadata.json` document (a flat JSON
object modeled as a key/value list) and the zoom directories. -/
structure TileTree where
  metadataJson : Option (List (String × String))
  zooms : List ZoomDir
deriving DecidableEq

/-- Observable events of an import run: row inserts into `metadata` and
`tiles`, transaction commits, and the two warnings the spec mentions. -/
inductive Event
  | insertMeta (name value : String)
  | insertTile (zoom col : Nat) (row : Int) (data : List Nat)
  | commit
  | warnSkip (file : String)
  | warnNoMetadata
deriving DecidableEq

/-- Mutable state of the import walk: the event trace so far, the running
`count` of inserted tiles, and the contents of the `tiles` table. -/
structure ImpState where
  events : List Event
  count : Nat
  tiles : List TileRow
deriving DecidableEq

/-- The body of the `for current_file in sorted(os.listdir(row_path))` loop of
`disk_to_mbtiles`: dotfiles are skipped silently; the extension is split off
and dot-stripped; a file whose extension differs from the effective image
format is skipped with a warning; the stem is parsed with plain `int(...)`
(an unparsable stem raises `ValueError`, aborting the run — `none`); the row
is flipped for the `tms` scheme only; finally the tile row is inserted. -/
def processFile (image_format scheme : String) (z x : Nat)
    (st : ImpState) (f : TreeFile) : Option ImpState :=
  if pyStartsWithDot f.name then some st
  else
    let ext : String := ⟨(splitext f.name).2.data.dropWhile (fun c => c = '.')⟩
    if ext ≠ image_format then
      some { st with events := st.events ++ [Event.warnSkip f.name] }
    else
      match pyInt? (splitext f.name).1.data with
      | none => none
      | some y0 =>
          let y := if scheme = "tms" then flip_y z y0 else y0
          some { st with
            events := st.events ++ [Event.insertTile z x y f.content]
            count := st.count + 1
            tiles := st.tiles ++ [⟨z, x, y, f.content⟩] }

/-- Ordering used when Python sorts the files of a column directory. -/
def fileLe (f g : TreeFile) : Prop := lexLeChars f.name.data g.name.data = true

instance : DecidableRel fileLe := fun f g => by unfold fileLe; infer_instance

/-- Ordering used when Python sorts the column directories of a zoom level. -/
def colLe (a b : ColDir) : Prop := lexLeChars a.name.data b.name.data = true

instance : DecidableRel colLe := fun a b => by unfold colLe; infer_instance

/-- Ordering of zoom directories: `sorted(..., key=...)` compares the parsed
zoom numbers, so sorting acts on `(key, dir)` pairs. -/
def zoomKeyLe (a b : Nat × ZoomDir) : Prop := a.1 ≤ b.1

instance : DecidableRel zoomKeyLe := fun a b => by unfold zoomKeyLe; infer_instance

/-- The body of the `for row_dir in sorted(get_dirs(zoom_path))` loop: parse
the column number from the digit-stripped directory name, then process the
sorted file listing. -/
def processCol (image_format scheme : String) (z : Nat)
    (st : ImpState) (c : ColDir) : Option ImpState := do
  let x ← parseDigits? c.name
  (List.insertionSort fileLe c.files).foldlM (processFile image_format scheme z x) st

/-- The body of the `for zoom_dir in zoom_levels` loop, at parsed zoom `kz.1`:
process the lexicographically sorted column directories. -/
def processZoom (image_format scheme : String) (st : ImpState)
    (kz : Nat × ZoomDir) : Option ImpState :=
  (List.insertionSort colLe kz.2.cols).foldlM (processCol image_format scheme kz.1) st

/-- Result of a successful import run. -/
structure ImportResult where
  events : List Event
  count : Nat
  tiles : List TileRow
  metadataRows : List (String × String)
  image_format : String
deriving DecidableEq

/-- The metadata step of the importer: the metadata rows to insert, the rows
themselves, and the effective image format (the document wins over the
configured format `fmt0`); an absent document yields a warning instead. -/
def metaTriple (tree : TileTree) (fmt0 : String) :
    List Event × List (String × String) × String :=
  match tree.metadataJson with
  | some mj =>
      (mj.map (fun (nv : String × String) => Event.insertMeta nv.1 nv.2), mj,
        (List.lookup "format" mj).getD fmt0)
  | none => ([Event.warnNoMetadata], [], fmt0)

/-- The importer `disk_to_mbtiles(directory_path, mbtiles_file, **kwargs)`.
The metadata document, when present, is inserted row by row and its `format`
key overrides the configured format (which itself defaults to `pbf`); when
absent a warning is emitted and the defaults stand.  Zoom directories are
sorted by parsed zoom number (`sorted` computes every key first, so one bad
name aborts before the walk), column names are parsed the same way, and each
accepted file inserts one tile row.  The only `con.commit()` of the importer
runs at the very end, after the optional dedup pass (whose own per-batch
commits are replayed into the trace).  `ANALYZE`/`VACUUM` maintenance is not
modeled; it writes no rows. -/
def disk_to_mbtiles (tree : TileTree) (format scheme : Option String)
    (compression : Bool) : Option ImportResult := do
  let fmt0 := format.getD "pbf"
  let schemeV := scheme.getD "xyz"
  let meta := metaTriple tree fmt0
  let keyed ← tree.zooms.mapM (fun zd => (parseDigits? zd.name).map (fun k => (k, zd)))
  let st ← (List.insertionSort zoomKeyLe keyed).foldlM
      (processZoom meta.2.2 schemeV) ⟨meta.1, 0, []⟩
  let dedupCommits :=
    if compression then List.replicate (compression_do st.tiles 256).commits Event.commit
    else []
  some ⟨st.events ++ dedupCommits ++ [Event.commit], st.count, st.tiles, meta.2.1, meta.2.2⟩

/-- The container as the exporter sees it: the `metadata` and `tiles` tables. -/
structure MBTilesDB where
  metadata : List (String × String)
  tiles : List TileRow
deriving DecidableEq

/-- One tile file written by the exporter.  Path components are numeric
(`str(...)` of the numbers in the source); `dir` lists the directory
components under the destination root and `row` is the filename stem. -/
structure TileWrite where
  dir : List Int
  row : Int
  ext : String
  data : List Nat
deriving DecidableEq

/-- Everything an export run writes beneath the destination root, plus a
success flag (`false` models the uncaught `FileExistsError`). -/
structure ExportOutcome where
  success : Bool
  metadataJsonOut : Option (List (String × String))
  layerJson : Option String
  tileWrites : List TileWrite
deriving DecidableEq

/-- Ordering of the `select ... from tiles ORDER BY zoom_level ASC` stream. -/
def zoomLe (a b : TileRow) : Prop := a.zoom ≤ b.zoom

instance : DecidableRel zoomLe := fun a b => by unfold zoomLe; infer_instance

/-- Path computation for one exported tile: scheme `xyz` flips the row and
uses the `z/x/y.format` layout, scheme `wms` uses the base-1000 digit-group
layout with the configured fallback format and no flip (modeled for the
non-negative coordinates the importer produces), and any other scheme —
including `tms` and an absent scheme — writes the stored row unchanged in the
`z/x/y.format` layout. -/
def exportTile (scheme fmtArg : Option String) (image_format : String)
    (t : TileRow) : TileWrite :=
  if scheme = some "xyz" then
    ⟨[(t.zoom : Int), (t.col : Int)], flip_y t.zoom t.row, image_format, t.data⟩
  else if scheme = some "wms" then
    ⟨[(t.zoom : Int), (t.col : Int) / 1000000, ((t.col : Int) / 1000) % 1000,
        (t.col : Int) % 1000, t.row / 1000000, (t.row / 1000) % 1000],
      t.row % 1000, fmtArg.getD "png", t.data⟩
  else
    ⟨[(t.zoom : Int), (t.col : Int)], t.row, image_format, t.data⟩

/-- The exporter `mbtiles_to_disk(mbtiles_file, directory_path, **kwargs)`,
restricted to its metadata and tiles passes (the trailing grids pass, which
runs after every tile write, is not modeled; no claim depends on it).
`os.mkdir` raises `FileExistsError` when the destination root already exists,
aborting the run before anything is written, so the failing outcome carries
no writes; the container is only ever read. -/
def mbtiles_to_disk (db : MBTilesDB) (destExists : Bool)
    (scheme fmtArg : Option String) : ExportOutcome :=
  if destExists then ⟨false, none, none, []⟩
  else
    let image_format := (List.lookup "format" db.metadata).getD "pbf"
    ⟨true, some db.metadata, List.lookup "formatter" db.metadata,
      (List.insertionSort zoomLe db.tiles).map (exportTile scheme fmtArg image_format)⟩

/-- A column directory with its dotfiles removed. -/
def stripColDir (c : ColDir) : ColDir :=
  { c with files := c.files.filter (fun f => !pyStartsWithDot f.name) }

/-- A zoom directory with every dotfile removed from its column directories. -/
def stripZoomDir (zd : ZoomDir) : ZoomDir :=
  { zd with cols := zd.cols.map stripColDir }

/-- A tree with every dotfile removed from every column directory. -/
def stripHidden (tree : TileTree) : TileTree :=
  { tree with zooms := tree.zooms.map stripZoomDir }

/-- Recognizer for commit events. -/
def isCommit : Event → Bool
  | Event.commit => true
  | _ => false

/-- Recognizer for tile-insert events. -/
def isInsertTile : Event → Bool
  | Event.insertTile _ _ _ _ => true
  | _ => false

/-- Number of tile rows inserted before the first commit of a trace. -/
def insertsBeforeFirstCommit (events : List Event) : Nat :=
  ((events.takeWhile (fun e => !isCommit e)).filter isInsertTile).length

/-- Coordinate triple of a `map` row. -/
def mapCoords (m : MapRow) : Nat × Nat × Int := (m.zoom, m.col, m.row)

/-- Coordinate triple of a `tiles` row. -/
def tileCoords (t : TileRow) : Nat × Nat × Int := (t.zoom, t.col, t.row)

/-- A tree with a single zoom directory, a single column directory and a
single file, used for concrete runs. -/
def oneFileTree (zname cname fname : String) (payload : List Nat) : TileTree :=
  ⟨none, [⟨zname, [⟨cname, [⟨fname, payload⟩]⟩]⟩]⟩

/-- Zero-padded three-digit decimal name of a number below 1000. -/
def nat3Name (n : Nat) : String :=
  ⟨[Nat.digitChar (n / 100 % 10), Nat.digitChar (n / 10 % 10), Nat.digitChar (n % 10)]⟩

/-- A tree holding 257 tile files `000.pbf` … `256.pbf` (one more than the
dedup chunk size) in one column directory, each with a distinct payload. -/
def tree257 : TileTree :=
  ⟨none, [⟨"0", [⟨"0",
    (List.range 257).map (fun k => ⟨nat3Name (256 - k) ++ ".pbf", [256 - k]⟩)⟩]⟩]⟩

/-- A `tiles` table of 257 rows (one more than the dedup chunk size) that all
carry the same one-byte payload. -/
def tilesRep257 : List TileRow :=
  (List.range 257).map (fun k => ⟨0, 0, (k : Int), [0]⟩)

/-- Two tiles with the same payload at different coordinates. -/
def tilesPair : List TileRow := [⟨0, 0, 0, [7]⟩, ⟨1, 2, 3, [7]⟩]

/-- Three tiles with pairwise-distinct payloads. -/
def tilesTriple : List TileRow := [⟨0, 0, 0, [5]⟩, ⟨0, 0, 1, [6]⟩, ⟨1, 0, 0, [7]⟩]

/-- A container holding one tile stored at (zoom 2, column 1, row 1). -/
def dbC4 : MBTilesDB := ⟨[], [⟨2, 1, 1, [9]⟩]⟩

/-- Events that the directory walk of the importer can emit: tile inserts and
skip warnings, but never commits or metadata events. -/
def isWalkEvent : Event → Bool
  | Event.insertTile _ _ _ _ => true
  | Event.warnSkip _ => true
  | _ => false

/-- A tree whose metadata document overrides the image format to `png`. -/
def treeWithMeta : TileTree :=
  ⟨some [("format", "png"), ("name", "t")], [⟨"0", [⟨"0", [⟨"0.png", [1]⟩]⟩]⟩]⟩

/-- A tree with no metadata document. -/
def treeNoMeta : TileTree := oneFileTree "0" "0" "0.pbf" [2]

/-- The result of importing `treeNoMeta` with default options. -/
def importNoMeta : ImportResult :=
  ⟨[Event.warnNoMetadata, Event.insertTile 0 0 0 [2], Event.commit], 1,
    [⟨0, 0, 0, [2]⟩], [], "pbf"⟩

/-- The result of importing `treeWithMeta` with default options. -/
def importWithMeta : ImportResult :=
  ⟨[Event.insertMeta "format" "png", Event.insertMeta "name" "t",
      Event.insertTile 0 0 0 [1], Event.commit], 1,
    [⟨0, 0, 0, [1]⟩], [("format", "png"), ("name", "t")], "png"⟩

theorem dedupRow_commits (s : DedupResult) (seen : List (List Nat × Nat)) (r : TileRow) :
    (dedupRow (s, seen) r).1.commits = s.commits := by
  unfold dedupRow
  cases hfind : List.find? (fun pr => pr.1 == r.data) seen with
  | some pr => simp [hfind]
  | none => simp [hfind]

theorem dedupRows_commits (rows : List TileRow) :
    ∀ (s : DedupResult) (seen : List (List Nat × Nat)),
      (rows.foldl dedupRow (s, seen)).1.commits = s.commits := by
  induction rows with
  | nil => intro s seen; rfl
  | cons r rest ih =>
      intro s seen
      rw [List.foldl_cons]
      cases hd : dedupRow (s, seen) r with
      | mk s' seen' =>
          have := ih s' seen'
          rw [this]
          have hc := dedupRow_commits s seen r
          rw [hd] at hc
          exact hc

theorem foldBatches_nil (chunk : Nat) (s : DedupResult) :
    foldBatches chunk [] s = dedupBatch s [] := by
  unfold foldBatches
  have h1 : List.range 1 = [0] := rfl
  simp [h1]

theorem foldBatches_lt (chunk : Nat) (l : List TileRow) (s : DedupResult)
    (h : l.length < chunk) :
    foldBatches chunk l s = dedupBatch s l := by
  unfold foldBatches
  rw [Nat.div_eq_of_lt h]
  have h1 : List.range 1 = [0] := rfl
  simp [h1, List.take_of_length_le (le_of_lt h)]

theorem foldBatches_ge (chunk : Nat) (l : List TileRow) (s : DedupResult)
    (hc : 0 < chunk) (h : chunk ≤ l.length) :
    foldBatches chunk l s
      = foldBatches chunk (l.drop chunk) (dedupBatch s (l.take chunk)) := by
  unfold foldBatches
  have hdiv : l.length / chunk = (l.drop chunk).length / chunk + 1 := by
    rw [List.length_drop]
    exact Nat.div_eq_sub_div hc h
  rw [hdiv, List.range_succ_eq_map, List.foldl_cons, List.foldl_map]
  have hbody : ∀ (t : DedupResult) (j : Nat),
      dedupBatch t ((l.drop (Nat.succ j * chunk)).take chunk)
        = dedupBatch t (((l.drop chunk).drop (j * chunk)).take chunk) := by
    intro t j
    congr 1
    rw [List.drop_drop]
    congr 1
    rw [Nat.succ_eq_add_one, Nat.add_mul, Nat.one_mul, Nat.add_comm]
  have hinit : dedupBatch s ((l.drop (0 * chunk)).take chunk)
      = dedupBatch s (l.take chunk) := by
    simp
  rw [hinit]
  exact List.foldl_ext _ _ _ fun t j _ => hbody t j

theorem range'_one_concat (n : Nat) :
    List.range' 1 (n + 1) = List.range' 1 n ++ [n + 1] := by
  have h := @List.range'_concat 1 1 n
  simpa [Nat.add_comm] using h

theorem dedupRow_inv (s : DedupResult) (seen : List (List Nat × Nat))
    (done : List TileRow) (r : TileRow)
    (hIds : s.images.map Prod.fst = List.range' 1 s.last_id)
    (hSeen : ∀ pr ∈ seen, lookupImage s.images pr.2 = some pr.1)
    (hCoords : s.mapRows.map mapCoords = done.map tileCoords)
    (hJoin : s.mapRows.map (fun m => lookupImage s.images m.tile_id)
        = done.map (fun t => some t.data)) :
    ((dedupRow (s, seen) r).1.images.map Prod.fst
        = List.range' 1 (dedupRow (s, seen) r).1.last_id)
    ∧ (∀ pr ∈ (dedupRow (s, seen) r).2,
        lookupImage (dedupRow (s, seen) r).1.images pr.2 = some pr.1)
    ∧ ((dedupRow (s, seen) r).1.mapRows.map mapCoords = (done ++ [r]).map tileCoords)
    ∧ ((dedupRow (s, seen) r).1.mapRows.map
          (fun m => lookupImage (dedupRow (s, seen) r).1.images m.tile_id)
        = (done ++ [r]).map (fun t => some t.data)) := by
  have hval : ∀ m ∈ s.mapRows, ∃ t : TileRow,
      lookupImage s.images m.tile_id = some t.data := by
    intro m hm
    have h1 : lookupImage s.images m.tile_id
        ∈ s.mapRows.map (fun m => lookupImage s.images m.tile_id) :=
      List.mem_map_of_mem _ hm
    rw [hJoin] at h1
    obtain ⟨t, _, hv⟩ := List.mem_map.mp h1
    exact ⟨t, hv.symm⟩
  cases hfind : List.find? (fun pr => pr.1 == r.data) seen with
  | some pr =>
      have hpr1 : pr.1 = r.data := by
        have h2 := List.find?_some hfind
        simpa using h2
      have hlook : lookupImage s.images pr.2 = some r.data := by
        rw [← hpr1]
        exact hSeen pr (List.mem_of_find?_eq_some hfind)
      simp only [dedupRow, hfind]
      refine ⟨hIds, hSeen, ?_, ?_⟩
      · show (s.mapRows ++ [(⟨r.zoom, r.col, r.row, pr.2⟩ : MapRow)]).map mapCoords
            = (done ++ [r]).map tileCoords
        rw [List.map_append, hCoords, List.map_append]
        rfl
      · show (s.mapRows ++ [(⟨r.zoom, r.col, r.row, pr.2⟩ : MapRow)]).map
              (fun m : MapRow => lookupImage s.images m.tile_id)
            = (done ++ [r]).map (fun t => some t.data)
        rw [List.map_append, hJoin, List.map_append]
        simp [hlook]
  | none =>
      have hub : ∀ id ∈ s.images.map Prod.fst, id ≤ s.last_id := by
        intro id hid
        rw [hIds, List.mem_range'] at hid
        obtain ⟨i, hi, hix⟩ := hid
        omega
      have hfresh : List.find? (fun pr => pr.1 == s.last_id + 1) s.images = none := by
        rw [List.find?_eq_none]
        intro q hq hbad
        have hq1 : q.1 = s.last_id + 1 := by simpa using hbad
        have hq2 : q.1 ≤ s.last_id := hub q.1 (List.mem_map_of_mem _ hq)
        omega
      have hpres : ∀ (id : Nat) (p : List Nat), lookupImage s.images id = some p →
          lookupImage (s.images ++ [(s.last_id + 1, r.data)]) id = some p := by
        intro id p hp
        unfold lookupImage at hp ⊢
        rw [List.find?_append]
        cases hf : List.find? (fun pr => pr.1 == id) s.images with
        | none => rw [hf] at hp; simp at hp
        | some q =>
            rw [hf] at hp
            simpa [Option.or] using hp
      have hnewlook : lookupImage (s.images ++ [(s.last_id + 1, r.data)])
          (s.last_id + 1) = some r.data := by
        unfold lookupImage
        rw [List.find?_append, hfresh]
        simp
      simp only [dedupRow, hfind]
      refine ⟨?_, ?_, ?_, ?_⟩
      · show (s.images ++ [(s.last_id + 1, r.data)]).map Prod.fst
            = List.range' 1 (s.last_id + 1)
        rw [List.map_append, hIds, range'_one_concat]
        rfl
      · intro pr hpr
        rcases List.mem_append.mp hpr with hold | hnew2
        · exact hpres pr.2 pr.1 (hSeen pr hold)
        · have hpr2 : pr = (r.data, s.last_id + 1) := by simpa using hnew2
          rw [hpr2]
          exact hnewlook
      · show (s.mapRows ++ [(⟨r.zoom, r.col, r.row, s.last_id + 1⟩ : MapRow)]).map mapCoords
            = (done ++ [r]).map tileCoords
        rw [List.map_append, hCoords, List.map_append]
        rfl
      · show (s.mapRows ++ [(⟨r.zoom, r.col, r.row, s.last_id + 1⟩ : MapRow)]).map
              (fun m : MapRow => lookupImage (s.images ++ [(s.last_id + 1, r.data)]) m.tile_id)
            = (done ++ [r]).map (fun t => some t.data)
        rw [List.map_append, List.map_append]
        congr 1
        · rw [← hJoin]
          apply List.map_congr_left
          intro m hm
          obtain ⟨t, ht⟩ := hval m hm
          rw [hpres m.tile_id t.data ht, ht]
        · simp [hnewlook]

theorem dedupRows_inv (rows : List TileRow) :
    ∀ (s : DedupResult) (seen : List (List Nat × Nat)) (done : List TileRow),
      s.images.map Prod.fst = List.range' 1 s.last_id →
      (∀ pr ∈ seen, lookupImage s.images pr.2 = some pr.1) →
      s.mapRows.map mapCoords = done.map tileCoords →
      s.mapRows.map (fun m => lookupImage s.images m.tile_id)
          = done.map (fun t => some t.data) →
      ((rows.foldl dedupRow (s, seen)).1.images.map Prod.fst
          = List.range' 1 (rows.foldl dedupRow (s, seen)).1.last_id)
      ∧ ((rows.foldl dedupRow (s, seen)).1.mapRows.map mapCoords
          = (done ++ rows).map tileCoords)
      ∧ ((rows.foldl dedupRow (s, seen)).1.mapRows.map
            (fun m => lookupImage (rows.foldl dedupRow (s, seen)).1.images m.tile_id)
          = (done ++ rows).map (fun t => some t.data)) := by
  induction rows with
  | nil =>
      intro s seen done hIds hSeen hCoords hJoin
      exact ⟨hIds, by simpa using hCoords, by simpa using hJoin⟩
  | cons r rest ih =>
      intro s seen done hIds hSeen hCoords hJoin
      obtain ⟨hIds', hSeen', hCoords', hJoin'⟩ :=
        dedupRow_inv s seen done r hIds hSeen hCoords hJoin
      rw [List.foldl_cons]
      cases hd : dedupRow (s, seen) r with
      | mk s' seen' =>
          rw [hd] at hIds' hSeen' hCoords' hJoin'
          have hres := ih s' seen' (done ++ [r]) hIds' hSeen' hCoords' hJoin'
          simpa using hres

theorem dedupBatch_inv (rows : List TileRow) (s : DedupResult) (done : List TileRow)
    (hIds : s.images.map Prod.fst = List.range' 1 s.last_id)
    (hCoords : s.mapRows.map mapCoords = done.map tileCoords)
    (hJoin : s.mapRows.map (fun m => lookupImage s.images m.tile_id)
        = done.map (fun t => some t.data)) :
    ((dedupBatch s rows).images.map Prod.fst
        = List.range' 1 (dedupBatch s rows).last_id)
    ∧ ((dedupBatch s rows).mapRows.map mapCoords = (done ++ rows).map tileCoords)
    ∧ ((dedupBatch s rows).mapRows.map
          (fun m => lookupImage (dedupBatch s rows).images m.tile_id)
        = (done ++ rows).map (fun t => some t.data)) := by
  have h := dedupRows_inv rows s [] done hIds (by intro pr hpr; cases hpr) hCoords hJoin
  unfold dedupBatch
  exact h

theorem foldBatches_inv (chunk : Nat) (hc : 0 < chunk) :
    ∀ (n : Nat) (l : List TileRow), l.length ≤ n →
      ∀ (s : DedupResult) (done : List TileRow),
        s.images.map Prod.fst = List.range' 1 s.last_id →
        s.mapRows.map mapCoords = done.map tileCoords →
        s.mapRows.map (fun m => lookupImage s.images m.tile_id)
            = done.map (fun t => some t.data) →
        ((foldBatches chunk l s).images.map Prod.fst
            = List.range' 1 (foldBatches chunk l s).last_id)
        ∧ ((foldBatches chunk l s).mapRows.map mapCoords = (done ++ l).map tileCoords)
        ∧ ((foldBatches chunk l s).mapRows.map
              (fun m => lookupImage (foldBatches chunk l s).images m.tile_id)
            = (done ++ l).map (fun t => some t.data)) := by
  intro n
  induction n with
  | zero =>
      intro l hl s done hIds hCoords hJoin
      have hnil : l = [] := List.eq_nil_of_length_eq_zero (Nat.le_zero.mp hl)
      subst hnil
      rw [foldBatches_nil]
      exact dedupBatch_inv [] s done hIds hCoords hJoin
  | succ n ih =>
      intro l hl s done hIds hCoords hJoin
      by_cases hlen : l.length < chunk
      · rw [foldBatches_lt chunk l s hlen]
        exact dedupBatch_inv l s done hIds hCoords hJoin
      · push_neg at hlen
        rw [foldBatches_ge chunk l s hc hlen]
        obtain ⟨hIds', hCoords', hJoin'⟩ :=
          dedupBatch_inv (l.take chunk) s done hIds hCoords hJoin
        have hlen' : (l.drop chunk).length ≤ n := by
          rw [List.length_drop]
          omega
        have h := ih (l.drop chunk) hlen' (dedupBatch s (l.take chunk))
          (done ++ l.take chunk) hIds' hCoords' hJoin'
        rw [List.append_assoc, List.take_append_drop] at h
        exact h

theorem dedupRows_count (rows : List TileRow) :
    ∀ (s : DedupResult) (seen : List (List Nat × Nat)),
      (rows.map TileRow.data).Nodup →
      (∀ pr ∈ seen, pr.1 ∉ rows.map TileRow.data) →
      ((rows.foldl dedupRow (s, seen)).1.images.length = s.images.length + rows.length)
      ∧ ((rows.foldl dedupRow (s, seen)).1.mapRows.length = s.mapRows.length + rows.length)
      ∧ ((rows.foldl dedupRow (s, seen)).1.overlapping = s.overlapping)
      ∧ ((rows.foldl dedupRow (s, seen)).1.uniqueCount = s.uniqueCount + rows.length) := by
  induction rows with
  | nil => intro s seen _ _; exact ⟨rfl, rfl, rfl, rfl⟩
  | cons r rest ih =>
      intro s seen hnd hdisj
      have hfind : List.find? (fun pr => pr.1 == r.data) seen = none := by
        rw [List.find?_eq_none]
        intro pr hpr hbad
        have h1 : pr.1 = r.data := by simpa using hbad
        exact hdisj pr hpr (h1 ▸ List.mem_cons_self _ _)
      rw [List.foldl_cons]
      simp only [dedupRow, hfind]
      have hnd' : (rest.map TileRow.data).Nodup := by
        simpa using List.Nodup.of_cons (by simpa using hnd)
      have hhead : r.data ∉ rest.map TileRow.data := by
        have := hnd
        simp only [List.map_cons] at this
        exact (List.nodup_cons.mp this).1
      have hdisj' : ∀ pr ∈ seen ++ [(r.data, s.last_id + 1)],
          pr.1 ∉ rest.map TileRow.data := by
        intro pr hpr
        rcases List.mem_append.mp hpr with hold | hnew
        · intro hmem
          exact hdisj pr hold (by simp [hmem])
        · have : pr = (r.data, s.last_id + 1) := by simpa using hnew
          rw [this]
          exact hhead
      obtain ⟨h1, h2, h3, h4⟩ := ih
        { s with
            total := s.total + 1
            uniqueCount := s.uniqueCount + 1
            last_id := s.last_id + 1
            images := s.images ++ [(s.last_id + 1, r.data)]
            mapRows := s.mapRows ++ [⟨r.zoom, r.col, r.row, s.last_id + 1⟩] }
        (seen ++ [(r.data, s.last_id + 1)]) hnd' hdisj'
      refine ⟨?_, ?_, ?_, ?_⟩
      · rw [h1]; simp; omega
      · rw [h2]; simp; omega
      · rw [h3]
      · rw [h4]; simp; omega

theorem foldBatches_count (chunk : Nat) (hc : 0 < chunk) :
    ∀ (n : Nat) (l : List TileRow), l.length ≤ n →
      ∀ (s : DedupResult), (l.map TileRow.data).Nodup →
        ((foldBatches chunk l s).images.length = s.images.length + l.length)
        ∧ ((foldBatches chunk l s).mapRows.length = s.mapRows.length + l.length)
        ∧ ((foldBatches chunk l s).overlapping = s.overlapping)
        ∧ ((foldBatches chunk l s).uniqueCount = s.uniqueCount + l.length) := by
  intro n
  induction n with
  | zero =>
      intro l hl s hnd
      have hnil : l = [] := List.eq_nil_of_length_eq_zero (Nat.le_zero.mp hl)
      subst hnil
      rw [foldBatches_nil]
      unfold dedupBatch
      obtain ⟨h1, h2, h3, h4⟩ := dedupRows_count [] s [] (by simp) (by simp)
      exact ⟨h1, h2, h3, h4⟩
  | succ n ih =>
      intro l hl s hnd
      by_cases hlen : l.length < chunk
      · rw [foldBatches_lt chunk l s hlen]
        unfold dedupBatch
        obtain ⟨h1, h2, h3, h4⟩ := dedupRows_count l s [] hnd (by simp)
        exact ⟨by simpa using h1, by simpa using h2, by simpa using h3, by simpa using h4⟩
      · push_neg at hlen
        rw [foldBatches_ge chunk l s hc hlen]
        have htake : ((l.take chunk).map TileRow.data).Nodup :=
          List.Nodup.sublist (List.Sublist.map _ (List.take_sublist _ _)) hnd
        have hdrop : ((l.drop chunk).map TileRow.data).Nodup :=
          List.Nodup.sublist (List.Sublist.map _ (List.drop_sublist _ _)) hnd
        have hb : ((dedupBatch s (l.take chunk)).images.length
              = s.images.length + (l.take chunk).length)
            ∧ ((dedupBatch s (l.take chunk)).mapRows.length
              = s.mapRows.length + (l.take chunk).length)
            ∧ ((dedupBatch s (l.take chunk)).overlapping = s.overlapping)
            ∧ ((dedupBatch s (l.take chunk)).uniqueCount
              = s.uniqueCount + (l.take chunk).length) := by
          unfold dedupBatch
          obtain ⟨h1, h2, h3, h4⟩ := dedupRows_count (l.take chunk) s [] htake (by simp)
          exact ⟨by simpa using h1, by simpa using h2, by simpa using h3,
            by simpa using h4⟩
        have hlen' : (l.drop chunk).length ≤ n := by
          rw [List.length_drop]
          omega
        obtain ⟨g1, g2, g3, g4⟩ := ih (l.drop chunk) hlen' (dedupBatch s (l.take chunk)) hdrop
        obtain ⟨h1, h2, h3, h4⟩ := hb
        have harith : (l.take chunk).length + (l.drop chunk).length = l.length := by
          rw [List.length_take, List.length_drop]
          omega
        refine ⟨?_, ?_, ?_, ?_⟩
        · rw [g1, h1]; omega
        · rw [g2, h2]; omega
        · rw [g3, h3]
        · rw [g4, h4]; omega

theorem dedupBatch_commits (s : DedupResult) (rows : List TileRow) :
    (dedupBatch s rows).commits = s.commits + 1 := by
  show (List.foldl dedupRow (s, []) rows).1.commits + 1 = s.commits + 1
  rw [dedupRows_commits]

theorem foldBatches_commits (chunk : Nat) (hc : 0 < chunk) :
    ∀ (n : Nat) (l : List TileRow), l.length ≤ n →
      ∀ (s : DedupResult),
        (foldBatches chunk l s).commits = s.commits + (l.length / chunk + 1) := by
  intro n
  induction n with
  | zero =>
      intro l hl s
      have hnil : l = [] := List.eq_nil_of_length_eq_zero (Nat.le_zero.mp hl)
      subst hnil
      rw [foldBatches_nil, dedupBatch_commits]
      simp [Nat.zero_div]
  | succ n ih =>
      intro l hl s
      by_cases hlen : l.length < chunk
      · rw [foldBatches_lt chunk l s hlen, dedupBatch_commits, Nat.div_eq_of_lt hlen]
      · push_neg at hlen
        rw [foldBatches_ge chunk l s hc hlen]
        have hlen' : (l.drop chunk).length ≤ n := by
          rw [List.length_drop]
          omega
        rw [ih (l.drop chunk) hlen' (dedupBatch s (l.take chunk)), dedupBatch_commits]
        have hdiv : l.length / chunk = (l.drop chunk).length / chunk + 1 := by
          rw [List.length_drop]
          exact Nat.div_eq_sub_div hc hlen
        rw [hdiv]
        omega

theorem dedupRows_payloads (rows : List TileRow) :
    ∀ (s : DedupResult) (seen : List (List Nat × Nat))
      (base doneP : List (List Nat)),
      s.images.map Prod.snd = base ++ seen.map Prod.fst →
      (seen.map Prod.fst).Nodup →
      (∀ p, p ∈ seen.map Prod.fst ↔ p ∈ doneP) →
      ((rows.foldl dedupRow (s, seen)).1.images.map Prod.snd
          = base ++ (rows.foldl dedupRow (s, seen)).2.map Prod.fst)
      ∧ ((rows.foldl dedupRow (s, seen)).2.map Prod.fst).Nodup
      ∧ (∀ p, p ∈ (rows.foldl dedupRow (s, seen)).2.map Prod.fst
            ↔ p ∈ doneP ++ rows.map TileRow.data) := by
  induction rows with
  | nil =>
      intro s seen base doneP hImgs hNd hMem
      refine ⟨hImgs, hNd, ?_⟩
      intro p
      simpa using hMem p
  | cons r rest ih =>
      intro s seen base doneP hImgs hNd hMem
      rw [List.foldl_cons]
      cases hfind : List.find? (fun pr => pr.1 == r.data) seen with
      | some pr =>
          have hpr1 : pr.1 = r.data := by
            have h2 := List.find?_some hfind
            simpa using h2
          have hrmem : r.data ∈ seen.map Prod.fst := by
            rw [← hpr1]
            exact List.mem_map_of_mem _ (List.mem_of_find?_eq_some hfind)
          simp only [dedupRow, hfind]
          have hMem' : ∀ p, p ∈ seen.map Prod.fst ↔ p ∈ doneP ++ [r.data] := by
            intro p
            constructor
            · intro hp
              exact List.mem_append.mpr (Or.inl ((hMem p).mp hp))
            · intro hp
              rcases List.mem_append.mp hp with h | h
              · exact (hMem p).mpr h
              · have : p = r.data := by simpa using h
                rw [this]
                exact hrmem
          have hres := ih
            { s with
                total := s.total + 1
                overlapping := s.overlapping + 1
                mapRows := s.mapRows ++ [⟨r.zoom, r.col, r.row, pr.2⟩] }
            seen base (doneP ++ [r.data]) hImgs hNd hMem'
          refine ⟨hres.1, hres.2.1, ?_⟩
          intro p
          rw [hres.2.2 p]
          simp [or_assoc]
      | none =>
          have hfreshp : r.data ∉ seen.map Prod.fst := by
            intro hmem
            obtain ⟨pr, hpr, hpr1⟩ := List.mem_map.mp hmem
            rw [List.find?_eq_none] at hfind
            exact hfind pr hpr (by simp [hpr1])
          simp only [dedupRow, hfind]
          have hImgs' : (s.images ++ [(s.last_id + 1, r.data)]).map Prod.snd
              = base ++ (seen ++ [(r.data, s.last_id + 1)]).map Prod.fst := by
            rw [List.map_append, hImgs, List.map_append, List.append_assoc]
            rfl
          have hNd' : ((seen ++ [(r.data, s.last_id + 1)]).map Prod.fst).Nodup := by
            rw [List.map_append]
            simp only [List.map_cons, List.map_nil]
            rw [List.nodup_append]
            exact ⟨hNd, List.nodup_singleton _, by simpa using hfreshp⟩
          have hMem' : ∀ p, p ∈ (seen ++ [(r.data, s.last_id + 1)]).map Prod.fst
              ↔ p ∈ doneP ++ [r.data] := by
            intro p
            rw [List.map_append]
            simp only [List.mem_append]
            constructor
            · intro hp
              rcases hp with h | h
              · exact Or.inl ((hMem p).mp h)
              · exact Or.inr (by simpa using h)
            · intro hp
              rcases hp with h | h
              · exact Or.inl ((hMem p).mpr h)
              · exact Or.inr (by simpa using h)
          have hres := ih
            { s with
                total := s.total + 1
                uniqueCount := s.uniqueCount + 1
                last_id := s.last_id + 1
                images := s.images ++ [(s.last_id + 1, r.data)]
                mapRows := s.mapRows ++ [⟨r.zoom, r.col, r.row, s.last_id + 1⟩] }
            (seen ++ [(r.data, s.last_id + 1)]) base (doneP ++ [r.data])
            hImgs' hNd' hMem'
          refine ⟨hres.1, hres.2.1, ?_⟩
          intro p
          rw [hres.2.2 p]
          simp [or_assoc]

theorem compression_do_images_le_chunk (tiles : List TileRow) (chunk : Nat)
    (hc : 0 < chunk) (h : tiles.length ≤ chunk) :
    (compression_do tiles chunk).images
      = (dedupBatch ⟨[], [], 0, 0, 0, 0, 0⟩ tiles).images := by
  unfold compression_do
  rcases Nat.lt_or_ge tiles.length chunk with hlt | hge
  · rw [foldBatches_lt _ _ _ hlt]
  · have heq : tiles.length = chunk := le_antisymm h hge
    rw [foldBatches_ge _ _ _ hc hge]
    have hdrop : tiles.drop chunk = [] := by
      rw [← heq]
      exact List.drop_length tiles
    have htake : tiles.take chunk = tiles := List.take_of_length_le h
    rw [hdrop, htake, foldBatches_nil]
    rfl

/-- C1 (amended): for every populated container and every positive chunk, the
deduplication pass produces exactly one `map` row per original tile, with the
original (zoom, column, row) coordinates in order, and joining each `map` row
to `images` through its surrogate id (which is unique in `images`) reproduces
the original payload; moreover, whenever the container holds at most `chunk`
tiles (in particular at most 256 for the importer's call), `images` holds
exactly one row per distinct byte sequence, each byte sequence appearing at
most once.  (The original claim, that `images` has exactly D rows for D
distinct payloads among arbitrarily many tiles, fails beyond one chunk: the
duplicate-detection lists are reset at every chunk boundary.) -/
theorem C1_dedup_amended (tiles : List TileRow) (chunk : Nat) (hc : 0 < chunk) :
    ((compression_do tiles chunk).mapRows.length = tiles.length)
    ∧ ((compression_do tiles chunk).mapRows.map mapCoords = tiles.map tileCoords)
    ∧ ((compression_do tiles chunk).mapRows.map
          (fun m => lookupImage (compression_do tiles chunk).images m.tile_id)
        = tiles.map (fun t => some t.data))
    ∧ (((compression_do tiles chunk).images.map Prod.fst).Nodup)
    ∧ (tiles.length ≤ chunk →
        (((compression_do tiles chunk).images.map Prod.snd).Nodup
          ∧ (compression_do tiles chunk).images.length
              = (tiles.map TileRow.data).dedup.length)) := by
  obtain ⟨hIds, hCoords, hJoin⟩ :=
    foldBatches_inv chunk hc tiles.length tiles le_rfl ⟨[], [], 0, 0, 0, 0, 0⟩ []
      rfl rfl rfl
  have hc1 : compression_do tiles chunk
      = foldBatches chunk tiles ⟨[], [], 0, 0, 0, 0, 0⟩ := rfl
  refine ⟨?_, ?_, ?_, ?_, ?_⟩
  · rw [hc1]
    have hlen := congrArg List.length hCoords
    simp only [List.length_map, List.nil_append] at hlen
    exact hlen
  · rw [hc1]
    simpa using hCoords
  · rw [hc1]
    simpa using hJoin
  · rw [hc1, hIds]
    exact List.nodup_range' _ _
  · intro h
    have himg := compression_do_images_le_chunk tiles chunk hc h
    obtain ⟨hImgs, hNd, hMem⟩ :=
      dedupRows_payloads tiles ⟨[], [], 0, 0, 0, 0, 0⟩ [] [] [] rfl (by simp) (by simp)
    have hb : (dedupBatch ⟨[], [], 0, 0, 0, 0, 0⟩ tiles).images
        = (tiles.foldl dedupRow (⟨[], [], 0, 0, 0, 0, 0⟩, [])).1.images := rfl
    constructor
    · rw [himg, hb, hImgs]
      simpa using hNd
    · rw [himg, hb]
      have hlen1 : (tiles.foldl dedupRow (⟨[], [], 0, 0, 0, 0, 0⟩, [])).1.images.length
          = ((tiles.foldl dedupRow (⟨[], [], 0, 0, 0, 0, 0⟩, [])).2.map Prod.fst).length := by
        rw [← List.length_map
          (tiles.foldl dedupRow (⟨[], [], 0, 0, 0, 0, 0⟩, [])).1.images Prod.snd]
        rw [hImgs]
        simp
      have hfin : ((tiles.foldl dedupRow (⟨[], [], 0, 0, 0, 0, 0⟩, [])).2.map
            Prod.fst).toFinset
          = (tiles.map TileRow.data).toFinset := by
        ext a
        simp only [List.mem_toFinset]
        simpa using hMem a
      have h1 := List.toFinset_card_of_nodup hNd
      have h2 := List.card_toFinset (tiles.map TileRow.data)
      rw [hlen1, ← h1, hfin, h2]

set_option maxRecDepth 100000 in
/-- C1 counterexample: 257 tiles (one more than the chunk size 256) that all
carry the same payload have D = 1 distinct byte sequence, yet the
deduplication pass stores 2 `images` rows — the payload list is reset at the
chunk boundary, so the claimed "exactly D rows in `images`" fails. -/
theorem C1_dedup_counterexample :
    ((tilesRep257.map TileRow.data).dedup.length = 1)
    ∧ (compression_do tilesRep257 256).images.length = 2 := by
  constructor
  · decide
  · decide

/-- C6 (confirmed): a dedup run over pairwise-distinct payloads produces one
`images` row and one `map` row per tile, zero overlapping merges, and counts
every tile as unique. -/
theorem C6_dedup_distinct (tiles : List TileRow) (chunk : Nat) (hc : 0 < chunk)
    (hnd : (tiles.map TileRow.data).Nodup) :
    ((compression_do tiles chunk).images.length = tiles.length)
    ∧ ((compression_do tiles chunk).mapRows.length = tiles.length)
    ∧ ((compression_do tiles chunk).overlapping = 0)
    ∧ ((compression_do tiles chunk).uniqueCount = tiles.length) := by
  obtain ⟨h1, h2, h3, h4⟩ :=
    foldBatches_count chunk hc tiles.length tiles le_rfl ⟨[], [], 0, 0, 0, 0, 0⟩ hnd
  have hc1 : compression_do tiles chunk
      = foldBatches chunk tiles ⟨[], [], 0, 0, 0, 0, 0⟩ := rfl
  rw [hc1]
  exact ⟨by simpa using h1, by simpa using h2, by simpa using h3, by simpa using h4⟩

/-- Witness for C1: the amended dedup theorem applied to a concrete two-tile
container with one duplicated payload and the importer's chunk size 256. -/
theorem C1_dedup_amended_witness :
    ((compression_do tilesPair 256).mapRows.length = tilesPair.length)
    ∧ ((compression_do tilesPair 256).mapRows.map mapCoords = tilesPair.map tileCoords)
    ∧ ((compression_do tilesPair 256).mapRows.map
          (fun m => lookupImage (compression_do tilesPair 256).images m.tile_id)
        = tilesPair.map (fun t => some t.data))
    ∧ (((compression_do tilesPair 256).images.map Prod.fst).Nodup)
    ∧ (tilesPair.length ≤ 256 →
        (((compression_do tilesPair 256).images.map Prod.snd).Nodup
          ∧ (compression_do tilesPair 256).images.length
              = (tilesPair.map TileRow.data).dedup.length)) :=
  C1_dedup_amended tilesPair 256 (by decide)

/-- Witness for C6: the distinct-payload dedup theorem applied to a concrete
three-tile container with pairwise-distinct payloads. -/
theorem C6_dedup_distinct_witness :
    ((compression_do tilesTriple 256).images.length = tilesTriple.length)
    ∧ ((compression_do tilesTriple 256).mapRows.length = tilesTriple.length)
    ∧ ((compression_do tilesTriple 256).overlapping = 0)
    ∧ ((compression_do tilesTriple 256).uniqueCount = tilesTriple.length) :=
  C6_dedup_distinct tilesTriple 256 (by decide) (by decide)

/-- C3 (confirmed): for every zoom and every row in [0, 2^zoom), the flip
equals (2^zoom - 1) - row and applying it twice gives the row back. -/
theorem C3_flip_involution (zoom : Nat) (row : Int)
    (_h0 : 0 ≤ row) (_h1 : row < 2 ^ zoom) :
    flip_y zoom row = (2 ^ zoom - 1) - row
    ∧ flip_y zoom (flip_y zoom row) = row := by
  unfold flip_y
  exact ⟨rfl, by ring⟩

/-- Witness for C3 at zoom 2, row 1. -/
theorem C3_flip_involution_witness :
    flip_y 2 1 = (2 ^ 2 - 1) - 1 ∧ flip_y 2 (flip_y 2 1) = 1 :=
  C3_flip_involution 2 1 (by decide) (by decide)

/-- C4 counterexample: exporting the container holding a tile stored at
(2, 1, 1) with scheme `tms` writes the file with row component 1 — the stored
row unchanged — not the claimed flip_y 2 1 = 2; only scheme `xyz` flips on
export. -/
theorem C4_tms_counterexample :
    (mbtiles_to_disk dbC4 false (some "tms") none).tileWrites
      = [⟨[2, 1], 1, "pbf", [9]⟩]
    ∧ flip_y 2 1 = 2
    ∧ (1 : Int) ≠ 2 := by
  refine ⟨by decide, by decide, by decide⟩

/-- C4 (amended): exporting the tile stored at (2, 1, 1) with scheme `tms`
writes row component 1, the stored row unchanged; it is scheme `xyz` that
applies the flip, writing row component flip_y 2 1 = 2. -/
theorem C4_export_row_components :
    (mbtiles_to_disk dbC4 false (some "tms") none).tileWrites
      = [⟨[2, 1], 1, "pbf", [9]⟩]
    ∧ (mbtiles_to_disk dbC4 false (some "xyz") none).tileWrites
      = [⟨[2, 1], flip_y 2 1, "pbf", [9]⟩] := by
  refine ⟨by decide, by decide⟩

/-- C8 (confirmed): when the destination tree root already exists as a
directory, the export fails and performs no writes at all — no metadata
document, no layer file, no tile files; the container is an input that the
exporter never writes to. -/
theorem C8_export_dest_exists (db : MBTilesDB) (scheme fmtArg : Option String) :
    mbtiles_to_disk db true scheme fmtArg
      = ⟨false, none, none, []⟩ := rfl

/-- C2 (code bug): importing the tree `1/0/0.pbf` with scheme `xyz` stores the
tile at row 0, and exporting that container with the same scheme `xyz` writes
the payload at row 1 = flip_y 1 0 instead of row 0: the importer flips rows
only for `tms` while the exporter flips only for `xyz`, so an import/export
round trip with equal schemes moves every tile to the flipped row instead of
reproducing it at the same coordinate. -/
theorem C2_roundtrip_bug :
    ((disk_to_mbtiles (oneFileTree "1" "0" "0.pbf" [7]) none (some "xyz") false).map
        (fun r => r.tiles) = some [⟨1, 0, 0, [7]⟩])
    ∧ ((mbtiles_to_disk ⟨[], [⟨1, 0, 0, [7]⟩]⟩ false (some "xyz") none).tileWrites
        = [⟨[1, 0], flip_y 1 0, "pbf", [7]⟩])
    ∧ flip_y 1 0 = 1
    ∧ (1 : Int) ≠ 0 := by
  refine ⟨by decide, by decide, by decide, by decide⟩

set_option maxRecDepth 1000000 in
set_option maxHeartbeats 4000000 in
/-- C7 counterexample: an import of 257 tile files without compression issues
no commit at all until the single commit at the end of the run: 257 tiles —
one more than the claimed chunk of 256 — are inserted before the first
commit. -/
theorem C7_counterexample :
    ((disk_to_mbtiles tree257 none none false).map
        (fun r => insertsBeforeFirstCommit r.events) = some 257)
    ∧ 256 < 257 := by
  refine ⟨by decide, by decide⟩

theorem processFile_events (fmt sch : String) (z x : Nat) (st : ImpState)
    (f : TreeFile) (st' : ImpState)
    (h : processFile fmt sch z x st f = some st') :
    ∃ es, st'.events = st.events ++ es ∧ ∀ e ∈ es, isWalkEvent e = true := by
  simp only [processFile] at h
  split at h
  · injection h with h
    subst h
    exact ⟨[], by simp, by simp⟩
  · split at h
    · injection h with h
      subst h
      exact ⟨[Event.warnSkip f.name], rfl, by simp [isWalkEvent]⟩
    · split at h
      · cases h
      · injection h with h
        subst h
        exact ⟨[Event.insertTile z x _ f.content], rfl, by simp [isWalkEvent]⟩

theorem foldlM_walk_events {α : Type} (g : ImpState → α → Option ImpState)
    (hg : ∀ st a st', g st a = some st' →
      ∃ es, st'.events = st.events ++ es ∧ ∀ e ∈ es, isWalkEvent e = true) :
    ∀ (l : List α) (st st' : ImpState), l.foldlM g st = some st' →
      ∃ es, st'.events = st.events ++ es ∧ ∀ e ∈ es, isWalkEvent e = true := by
  intro l
  induction l with
  | nil =>
      intro st st' h
      simp only [List.foldlM_nil] at h
      injection h with h
      subst h
      exact ⟨[], by simp, by simp⟩
  | cons a rest ih =>
      intro st st' h
      rw [List.foldlM_cons] at h
      cases hga : g st a with
      | none => rw [hga] at h; simp at h
      | some st1 =>
          rw [hga] at h
          simp only [Option.bind_eq_bind, Option.some_bind] at h
          obtain ⟨es1, he1, hw1⟩ := hg st a st1 hga
          obtain ⟨es2, he2, hw2⟩ := ih st1 st' h
          refine ⟨es1 ++ es2, ?_, ?_⟩
          · rw [he2, he1, List.append_assoc]
          · intro e he
            rcases List.mem_append.mp he with h1 | h2
            exacts [hw1 e h1, hw2 e h2]

theorem processCol_events (fmt sch : String) (z : Nat) (st : ImpState)
    (c : ColDir) (st' : ImpState)
    (h : processCol fmt sch z st c = some st') :
    ∃ es, st'.events = st.events ++ es ∧ ∀ e ∈ es, isWalkEvent e = true := by
  simp only [processCol] at h
  cases hx : parseDigits? c.name with
  | none => rw [hx] at h; simp at h
  | some x =>
      rw [hx] at h
      simp only [Option.bind_eq_bind, Option.some_bind] at h
      exact foldlM_walk_events _ (fun st a st' => processFile_events fmt sch z x st a st')
        _ st st' h

theorem processZoom_events (fmt sch : String) (st : ImpState)
    (kz : Nat × ZoomDir) (st' : ImpState)
    (h : processZoom fmt sch st kz = some st') :
    ∃ es, st'.events = st.events ++ es ∧ ∀ e ∈ es, isWalkEvent e = true := by
  simp only [processZoom] at h
  exact foldlM_walk_events _ (fun st a st' => processCol_events fmt sch kz.1 st a st')
    _ st st' h

theorem disk_to_mbtiles_destruct (tree : TileTree) (fmt sch : Option String)
    (comp : Bool) (r : ImportResult)
    (h : disk_to_mbtiles tree fmt sch comp = some r) :
    ∃ es ded,
      r.events = (metaTriple tree (fmt.getD "pbf")).1 ++ es ++ ded ++ [Event.commit]
      ∧ (∀ e ∈ es, isWalkEvent e = true)
      ∧ (∀ e ∈ ded, e = Event.commit)
      ∧ (comp = false → ded = [])
      ∧ r.metadataRows = (metaTriple tree (fmt.getD "pbf")).2.1
      ∧ r.image_format = (metaTriple tree (fmt.getD "pbf")).2.2 := by
  simp only [disk_to_mbtiles] at h
  cases hk : tree.zooms.mapM (fun zd => (parseDigits? zd.name).map (fun k => (k, zd))) with
  | none => rw [hk] at h; simp at h
  | some keyed =>
      rw [hk] at h
      simp only [Option.bind_eq_bind, Option.some_bind] at h
      cases hst : (List.insertionSort zoomKeyLe keyed).foldlM
          (processZoom (metaTriple tree (fmt.getD "pbf")).2.2 (sch.getD "xyz"))
          ⟨(metaTriple tree (fmt.getD "pbf")).1, 0, []⟩ with
      | none => rw [hst] at h; simp at h
      | some st =>
          rw [hst] at h
          simp only [Option.bind_eq_bind, Option.some_bind, Option.some.injEq] at h
          obtain ⟨es, he, hw⟩ := foldlM_walk_events _
            (fun a b c => processZoom_events _ _ a b c) _ _ _ hst
          subst h
          refine ⟨es, if comp then List.replicate
              (compression_do st.tiles 256).commits Event.commit else [], ?_, hw, ?_, ?_,
              rfl, rfl⟩
          · show st.events ++ _ ++ [Event.commit] = _
            rw [he]
          · intro e hee
            by_cases hcomp : comp = true
            · rw [if_pos hcomp] at hee
              exact List.eq_of_mem_replicate hee
            · rw [if_neg hcomp] at hee
              cases hee
          · intro hcomp
            rw [hcomp]
            rfl

/-- C7 (amended): an import run without compression issues a single commit at
the very end of the run — no commit separates the tile inserts, so a crash
mid-run loses every inserted tile, not just the current batch; only the
deduplication pass commits per batch, issuing `total_tiles / chunk + 1`
commits, one after each chunk of source rows. -/
theorem C7_commit_batches :
    (∀ (tree : TileTree) (fmt sch : Option String) (r : ImportResult),
        disk_to_mbtiles tree fmt sch false = some r →
        ∃ pre, r.events = pre ++ [Event.commit] ∧ Event.commit ∉ pre)
    ∧ (∀ (tiles : List TileRow) (chunk : Nat), 0 < chunk →
        (compression_do tiles chunk).commits = tiles.length / chunk + 1) := by
  constructor
  · intro tree fmt sch r h
    obtain ⟨es, ded, hev, hwalk, hded, hnil, hrows, hfmt⟩ :=
      disk_to_mbtiles_destruct tree fmt sch false r h
    rw [hnil rfl] at hev
    refine ⟨(metaTriple tree (fmt.getD "pbf")).1 ++ es, ?_, ?_⟩
    · rw [hev]
      simp
    · intro hmem
      rcases List.mem_append.mp hmem with hm | hm
      · cases hmj : tree.metadataJson with
        | some mj =>
            simp [metaTriple, hmj, List.mem_map] at hm
        | none =>
            simp [metaTriple, hmj] at hm
      · have hbad := hwalk _ hm
        simp [isWalkEvent] at hbad
  · intro tiles chunk hc
    have h := foldBatches_commits chunk hc tiles.length tiles le_rfl ⟨[], [], 0, 0, 0, 0, 0⟩
    have hc1 : compression_do tiles chunk
        = foldBatches chunk tiles ⟨[], [], 0, 0, 0, 0, 0⟩ := rfl
    rw [hc1, h]
    simp

/-- Witness for C7: the single trailing commit of a concrete one-file import,
and the dedup commit count on an empty tiles table. -/
theorem C7_commit_batches_witness :
    (∃ pre, importNoMeta.events = pre ++ [Event.commit] ∧ Event.commit ∉ pre)
    ∧ (compression_do [] 256).commits = ([] : List TileRow).length / 256 + 1 :=
  ⟨C7_commit_batches.1 treeNoMeta none none importNoMeta (by decide),
    C7_commit_batches.2 [] 256 (by decide)⟩

/-- C9 (confirmed): when a metadata document exists at the tree root, every
one of its keys is inserted as a metadata row, its `format` value overrides
the configured image format for the run, and no missing-metadata warning is
emitted; when the document is absent the import proceeds with the configured
or default format, inserting no metadata rows, and warns. -/
theorem C9_metadata_handling :
    (∀ (tree : TileTree) (fmt sch : Option String) (comp : Bool)
        (r : ImportResult) (mj : List (String × String)),
        tree.metadataJson = some mj →
        disk_to_mbtiles tree fmt sch comp = some r →
        r.metadataRows = mj
        ∧ r.image_format = (List.lookup "format" mj).getD (fmt.getD "pbf")
        ∧ (∀ nv ∈ mj, Event.insertMeta nv.1 nv.2 ∈ r.events)
        ∧ Event.warnNoMetadata ∉ r.events)
    ∧ (∀ (tree : TileTree) (fmt sch : Option String) (comp : Bool)
        (r : ImportResult),
        tree.metadataJson = none →
        disk_to_mbtiles tree fmt sch comp = some r →
        r.metadataRows = []
        ∧ r.image_format = fmt.getD "pbf"
        ∧ Event.warnNoMetadata ∈ r.events) := by
  constructor
  · intro tree fmt sch comp r mj hmj h
    obtain ⟨es, ded, hev, hwalk, hded, hnil, hrows, hfmt⟩ :=
      disk_to_mbtiles_destruct tree fmt sch comp r h
    have hmeta : metaTriple tree (fmt.getD "pbf")
        = (mj.map (fun (nv : String × String) => Event.insertMeta nv.1 nv.2), mj,
            (List.lookup "format" mj).getD (fmt.getD "pbf")) := by
      simp [metaTriple, hmj]
    refine ⟨?_, ?_, ?_, ?_⟩
    · rw [hrows, hmeta]
    · rw [hfmt, hmeta]
    · intro nv hnv
      rw [hev]
      have hmm : Event.insertMeta nv.1 nv.2
          ∈ mj.map (fun (nv : String × String) => Event.insertMeta nv.1 nv.2) :=
        List.mem_map_of_mem _ hnv
      simp only [hmeta, List.mem_append]
      exact Or.inl (Or.inl (Or.inl hmm))
    · rw [hev]
      intro hmem
      simp only [List.mem_append] at hmem
      rcases hmem with ((hm | hm) | hm) | hm
      · rw [hmeta] at hm
        simp [List.mem_map] at hm
      · have hbad := hwalk _ hm
        simp [isWalkEvent] at hbad
      · have hbad := hded _ hm
        cases hbad
      · simp at hm
  · intro tree fmt sch comp r hmj h
    obtain ⟨es, ded, hev, hwalk, hded, hnil, hrows, hfmt⟩ :=
      disk_to_mbtiles_destruct tree fmt sch comp r h
    have hmeta : metaTriple tree (fmt.getD "pbf")
        = ([Event.warnNoMetadata], [], fmt.getD "pbf") := by
      simp [metaTriple, hmj]
    refine ⟨by rw [hrows, hmeta], by rw [hfmt, hmeta], ?_⟩
    rw [hev]
    simp only [hmeta, List.mem_append]
    left
    left
    left
    simp

/-- Witness for C9: the two concrete imports, one with and one without a
metadata document. -/
theorem C9_metadata_handling_witness :
    (importWithMeta.metadataRows = [("format", "png"), ("name", "t")]
      ∧ importWithMeta.image_format
          = (List.lookup "format" [("format", "png"), ("name", "t")]).getD
              ((none : Option String).getD "pbf")
      ∧ (∀ nv ∈ [("format", "png"), ("name", "t")],
          Event.insertMeta nv.1 nv.2 ∈ importWithMeta.events)
      ∧ Event.warnNoMetadata ∉ importWithMeta.events)
    ∧ (importNoMeta.metadataRows = []
      ∧ importNoMeta.image_format = (none : Option String).getD "pbf"
      ∧ Event.warnNoMetadata ∈ importNoMeta.events) :=
  ⟨C9_metadata_handling.1 treeWithMeta none none false importWithMeta
      [("format", "png"), ("name", "t")] rfl (by decide),
    C9_metadata_handling.2 treeNoMeta none none false importNoMeta rfl (by decide)⟩

theorem lexLeChars_total : ∀ as bs : List Char,
    lexLeChars as bs = true ∨ lexLeChars bs as = true := by
  intro as
  induction as with
  | nil => intro bs; left; rfl
  | cons a as ih =>
      intro bs
      cases bs with
      | nil => right; rfl
      | cons b bs' =>
          by_cases hab : a = b
          · subst hab
            simpa [lexLeChars] using ih bs'
          · rcases lt_or_gt_of_ne hab with h | h
            · left; simp [lexLeChars, hab, h]
            · right; simp [lexLeChars, Ne.symm hab, h]

theorem lexLeChars_trans : ∀ as bs cs : List Char,
    lexLeChars as bs = true → lexLeChars bs cs = true → lexLeChars as cs = true := by
  intro as
  induction as with
  | nil => intro bs cs _ _; rfl
  | cons a as ih =>
      intro bs cs h1 h2
      cases bs with
      | nil => simp [lexLeChars] at h1
      | cons b bs' =>
          cases cs with
          | nil => simp [lexLeChars] at h2
          | cons c cs' =>
              by_cases hab : a = b
              · subst hab
                by_cases hac : a = c
                · subst hac
                  simp only [lexLeChars, if_pos rfl] at h1 h2 ⊢
                  exact ih bs' cs' h1 h2
                · simp only [lexLeChars, if_pos rfl] at h1
                  simpa [lexLeChars, hac] using h2
              · by_cases hbc : b = c
                · subst hbc
                  simpa [lexLeChars, hab] using h1
                · simp only [lexLeChars, if_neg hab, decide_eq_true_eq] at h1
                  simp only [lexLeChars, if_neg hbc, decide_eq_true_eq] at h2
                  have hac2 : a < c := lt_trans h1 h2
                  have hane : a ≠ c := ne_of_lt hac2
                  simp [lexLeChars, hane, hac2]

theorem fileLe_total : ∀ f g : TreeFile, fileLe f g ∨ fileLe g f := by
  intro f g
  exact lexLeChars_total f.name.data g.name.data

theorem fileLe_trans : ∀ {f g h : TreeFile}, fileLe f g → fileLe g h → fileLe f h := by
  intro f g h h1 h2
  exact lexLeChars_trans _ _ _ h1 h2

theorem orderedInsert_filter {α : Type} (r : α → α → Prop) [DecidableRel r]
    (htot : ∀ a b, r a b ∨ r b a) (htrans : ∀ {a b c}, r a b → r b c → r a c)
    (p : α → Bool) (a : α) :
    ∀ l : List α, List.Sorted r l →
      (List.orderedInsert r a l).filter p
        = if p a then List.orderedInsert r a (l.filter p) else l.filter p := by
  intro l
  induction l with
  | nil =>
      intro _
      by_cases hpa : p a = true
      · simp [List.orderedInsert, List.filter_cons, hpa]
      · simp [List.orderedInsert, List.filter_cons, hpa]
  | cons b bs ih =>
      intro hs
      by_cases hab : r a b
      · rw [show List.orderedInsert r a (b :: bs) = a :: b :: bs from by
          simp [List.orderedInsert, hab]]
        by_cases hpa : p a = true
        · rw [if_pos hpa, List.filter_cons, if_pos hpa]
          have hall : ∀ c ∈ (b :: bs).filter p, r a c := by
            intro c hc
            have hc2 : c ∈ b :: bs := (List.mem_filter.mp hc).1
            rcases List.mem_cons.mp hc2 with h | h
            · rw [h]; exact hab
            · exact htrans hab (List.rel_of_sorted_cons hs c h)
          cases hfb : (b :: bs).filter p with
          | nil => simp [List.orderedInsert]
          | cons c cs =>
              have hac : r a c := hall c (hfb ▸ List.mem_cons_self _ _)
              simp [List.orderedInsert, hac]
        · rw [if_neg hpa, List.filter_cons, if_neg hpa]
      · have hba : r b a := (htot a b).resolve_left hab
        rw [show List.orderedInsert r a (b :: bs) = b :: List.orderedInsert r a bs from by
          simp [List.orderedInsert, hab]]
        have ihs := ih (List.Sorted.of_cons hs)
        by_cases hpb : p b = true
        · rw [List.filter_cons, if_pos hpb, ihs]
          by_cases hpa : p a = true
          · rw [if_pos hpa, if_pos hpa, List.filter_cons, if_pos hpb]
            rw [show List.orderedInsert r a (b :: bs.filter p)
                = b :: List.orderedInsert r a (bs.filter p) from by
              simp [List.orderedInsert, hab]]
          · rw [if_neg hpa, if_neg hpa, List.filter_cons, if_pos hpb]
        · rw [List.filter_cons, if_neg hpb, ihs]
          by_cases hpa : p a = true
          · rw [if_pos hpa, if_pos hpa, List.filter_cons, if_neg hpb]
          · rw [if_neg hpa, if_neg hpa, List.filter_cons, if_neg hpb]

theorem insertionSort_filter {α : Type} (r : α → α → Prop) [DecidableRel r]
    (htot : ∀ a b, r a b ∨ r b a) (htrans : ∀ {a b c}, r a b → r b c → r a c)
    (p : α → Bool) :
    ∀ l : List α,
      (List.insertionSort r l).filter p = List.insertionSort r (l.filter p) := by
  haveI : IsTotal α r := ⟨htot⟩
  haveI : IsTrans α r := ⟨fun _ _ _ h1 h2 => htrans h1 h2⟩
  intro l
  induction l with
  | nil => rfl
  | cons a l ih =>
      rw [show List.insertionSort r (a :: l)
          = List.orderedInsert r a (List.insertionSort r l) from rfl]
      rw [orderedInsert_filter r htot htrans p a _ (List.sorted_insertionSort r l), ih]
      rw [List.filter_cons]
      by_cases hpa : p a = true
      · rw [if_pos hpa, if_pos hpa]
        rfl
      · rw [if_neg hpa, if_neg hpa]

theorem processFiles_filter (fmt sch : String) (z x : Nat) :
    ∀ (files : List TreeFile) (st : ImpState),
      files.foldlM (processFile fmt sch z x) st
        = (files.filter (fun f => !pyStartsWithDot f.name)).foldlM
            (processFile fmt sch z x) st := by
  intro files
  induction files with
  | nil => intro st; rfl
  | cons f rest ih =>
      intro st
      rw [List.foldlM_cons, List.filter_cons]
      by_cases hdot : pyStartsWithDot f.name = true
      · rw [if_neg (by simp [hdot])]
        have hskip : processFile fmt sch z x st f = some st := by
          simp only [processFile]
          rw [if_pos hdot]
        rw [hskip]
        simp only [Option.bind_eq_bind, Option.some_bind]
        exact ih st
      · have hf : pyStartsWithDot f.name = false := by
          revert hdot
          cases pyStartsWithDot f.name <;> simp
        rw [if_pos (by simp [hf]), List.foldlM_cons]
        cases hpf : processFile fmt sch z x st f with
        | none => simp
        | some st1 =>
            simp only [Option.bind_eq_bind, Option.some_bind]
            exact ih st1

theorem processCol_strip (fmt sch : String) (z : Nat) (st : ImpState) (c : ColDir) :
    processCol fmt sch z st (stripColDir c) = processCol fmt sch z st c := by
  simp only [processCol, stripColDir]
  cases hx : parseDigits? c.name with
  | none => rfl
  | some x =>
      simp only [Option.bind_eq_bind, Option.some_bind]
      rw [← insertionSort_filter fileLe fileLe_total
        (fun h1 h2 => fileLe_trans h1 h2) _ c.files]
      exact (processFiles_filter fmt sch z x (List.insertionSort fileLe c.files) st).symm

theorem processZoom_strip (fmt sch : String) (st : ImpState) (kz : Nat × ZoomDir) :
    processZoom fmt sch st (kz.1, stripZoomDir kz.2) = processZoom fmt sch st kz := by
  simp only [processZoom, stripZoomDir]
  rw [← List.map_insertionSort colLe colLe stripColDir kz.2.cols
    (fun a _ b _ => Iff.rfl)]
  rw [List.foldlM_map]
  have hfun : (fun (s : ImpState) (c : ColDir) => processCol fmt sch kz.1 s (stripColDir c))
      = fun (s : ImpState) (c : ColDir) => processCol fmt sch kz.1 s c := by
    funext s c
    exact processCol_strip fmt sch kz.1 s c
  rw [hfun]

theorem mapM_keyed_strip :
    ∀ zooms : List ZoomDir,
      (zooms.map stripZoomDir).mapM
          (fun zd => (parseDigits? zd.name).map (fun k => (k, zd)))
        = (zooms.mapM (fun zd => (parseDigits? zd.name).map (fun k => (k, zd)))).map
            (List.map (fun kz : Nat × ZoomDir => (kz.1, stripZoomDir kz.2))) := by
  intro zooms
  induction zooms with
  | nil => rfl
  | cons zd rest ih =>
      rw [List.map_cons, List.mapM_cons, List.mapM_cons]
      have hname : (stripZoomDir zd).name = zd.name := rfl
      rw [hname]
      cases hp : parseDigits? zd.name with
      | none => simp [hp]
      | some k =>
          simp only [hp, Option.map_some', Option.bind_eq_bind, Option.some_bind]
          rw [ih]
          cases hm : rest.mapM (fun zd => (parseDigits? zd.name).map (fun k => (k, zd))) with
          | none => simp
          | some l => simp

theorem disk_to_mbtiles_stripHidden (tree : TileTree) (fmt sch : Option String)
    (comp : Bool) :
    disk_to_mbtiles (stripHidden tree) fmt sch comp
      = disk_to_mbtiles tree fmt sch comp := by
  simp only [disk_to_mbtiles, stripHidden]
  have hmeta : metaTriple
        { metadataJson := tree.metadataJson, zooms := tree.zooms.map stripZoomDir }
        (fmt.getD "pbf")
      = metaTriple tree (fmt.getD "pbf") := rfl
  rw [hmeta, mapM_keyed_strip tree.zooms]
  cases hk : tree.zooms.mapM (fun zd => (parseDigits? zd.name).map (fun k => (k, zd))) with
  | none => rfl
  | some keyed =>
      simp only [Option.map_some', Option.bind_eq_bind, Option.some_bind]
      rw [← List.map_insertionSort zoomKeyLe zoomKeyLe
        (fun kz : Nat × ZoomDir => (kz.1, stripZoomDir kz.2)) keyed
        (fun a _ b _ => Iff.rfl)]
      rw [List.foldlM_map]
      have hfun : (fun (s : ImpState) (kz : Nat × ZoomDir) =>
            processZoom (metaTriple tree (fmt.getD "pbf")).2.2 (sch.getD "xyz") s
              (kz.1, stripZoomDir kz.2))
          = fun (s : ImpState) (kz : Nat × ZoomDir) =>
              processZoom (metaTriple tree (fmt.getD "pbf")).2.2 (sch.getD "xyz") s kz := by
        funext s kz
        exact processZoom_strip _ _ s kz
      rw [hfun]

/-- C10 (confirmed): a file whose name begins with a dot is skipped silently —
the import state is returned unchanged, with no warning and no inserted row —
regardless of its extension or the effective format; processing any file list
equals processing it with the dotfiles removed, and a whole import run on a
tree is identical to the run on the tree with every dotfile removed. -/
theorem C10_dotfiles_skipped :
    (∀ (fmt sch : String) (z x : Nat) (st : ImpState) (f : TreeFile),
        pyStartsWithDot f.name = true → processFile fmt sch z x st f = some st)
    ∧ (∀ (fmt sch : String) (z x : Nat) (files : List TreeFile) (st : ImpState),
        files.foldlM (processFile fmt sch z x) st
          = (files.filter (fun f => !pyStartsWithDot f.name)).foldlM
              (processFile fmt sch z x) st)
    ∧ (∀ (tree : TileTree) (fmt sch : Option String) (comp : Bool),
        disk_to_mbtiles (stripHidden tree) fmt sch comp
          = disk_to_mbtiles tree fmt sch comp) := by
  refine ⟨?_, ?_, ?_⟩
  · intro fmt sch z x st f hdot
    simp only [processFile]
    rw [if_pos hdot]
  · intro fmt sch z x files st
    exact processFiles_filter fmt sch z x files st
  · intro tree fmt sch comp
    exact disk_to_mbtiles_stripHidden tree fmt sch comp

/-- Witness for C10: a `.DS_Store` file is skipped with the state unchanged,
and a one-dotfile tree imports exactly like its stripped version. -/
theorem C10_dotfiles_skipped_witness :
    processFile "pbf" "xyz" 0 0 ⟨[], 0, []⟩ ⟨".DS_Store", [1]⟩ = some ⟨[], 0, []⟩
    ∧ disk_to_mbtiles (stripHidden (oneFileTree "0" "0" ".DS_Store" [1])) none none false
        = disk_to_mbtiles (oneFileTree "0" "0" ".DS_Store" [1]) none none false :=
  ⟨C10_dotfiles_skipped.1 "pbf" "xyz" 0 0 ⟨[], 0, []⟩ ⟨".DS_Store", [1]⟩ (by decide),
    (C10_dotfiles_skipped.2.2 (oneFileTree "0" "0" ".DS_Store" [1]) none none false)⟩

theorem splitext_stem_pbf (stem : String)
    (hdot : pyStartsWithDot (stem ++ ".pbf") = false) :
    splitext (stem ++ ".pbf") = (stem, ".pbf") := by
  have hdata : (stem ++ ".pbf").data = stem.data ++ ['.', 'p', 'b', 'f'] := by
    rw [String.data_append]
  cases hsd : stem.data with
  | nil =>
      exfalso
      unfold pyStartsWithDot at hdot
      rw [hdata, hsd] at hdot
      simp at hdot
  | cons c rest =>
      have hc : ¬ c = '.' := by
        unfold pyStartsWithDot at hdot
        rw [hdata, hsd] at hdot
        simpa using hdot
      simp only [splitext]
      rw [hdata, hsd]
      have htw1 : List.takeWhile (fun ch => decide (ch = '.'))
          ((c :: rest) ++ ['.', 'p', 'b', 'f']) = [] := by
        rw [List.cons_append, List.takeWhile_cons]
        simp [hc]
      rw [htw1]
      have hm : '.' ∈ List.drop ([] : List Char).length ((c :: rest) ++ ['.', 'p', 'b', 'f']) := by
        simp
      rw [if_pos hm]
      have hrev : (((c :: rest) ++ ['.', 'p', 'b', 'f']).reverse)
          = ['f', 'b', 'p', '.'] ++ (c :: rest).reverse := by
        rw [List.reverse_append]
        rfl
      rw [hrev]
      have htw2 : List.takeWhile (fun ch => decide (¬ ch = '.'))
          (['f', 'b', 'p', '.'] ++ (c :: rest).reverse) = ['f', 'b', 'p'] := by
        simp [List.takeWhile_cons]
      rw [htw2]
      have hlen : ((c :: rest) ++ ['.', 'p', 'b', 'f']).length
          - (['f', 'b', 'p'] : List Char).length - 1 = (c :: rest).length := by
        simp [List.length_append]
      rw [hlen, List.take_left, List.drop_left]
      rw [← hsd]

theorem processFile_pbf_stem (z x : Nat) (st : ImpState) (stem : String)
    (payload : List Nat) (hdot : pyStartsWithDot (stem ++ ".pbf") = false) :
    processFile "pbf" "xyz" z x st ⟨stem ++ ".pbf", payload⟩
      = match pyInt? stem.data with
        | none => none
        | some y0 => some { st with
            events := st.events ++ [Event.insertTile z x y0 payload],
            count := st.count + 1,
            tiles := st.tiles ++ [⟨z, x, y0, payload⟩] } := by
  simp only [processFile]
  rw [if_neg (by simp [hdot])]
  rw [splitext_stem_pbf stem hdot]
  rfl

theorem disk_single (fname : String) (payload : List Nat) :
    disk_to_mbtiles (oneFileTree "0" "0" fname payload) none none false
      = (processFile "pbf" "xyz" 0 0 ⟨[Event.warnNoMetadata], 0, []⟩
          ⟨fname, payload⟩).bind
          (fun st => some ⟨st.events ++ [] ++ [Event.commit], st.count, st.tiles, [], "pbf"⟩) := by
  have h0 : parseDigits? "0" = some 0 := rfl
  simp only [disk_to_mbtiles, oneFileTree, metaTriple, List.mapM_cons, List.mapM_nil, h0,
    Option.map_some', Option.bind_eq_bind, Option.some_bind, Option.getD,
    List.insertionSort, List.orderedInsert, List.foldlM_cons, List.foldlM_nil,
    processZoom, processCol]
  cases hpf : processFile "pbf" "xyz" 0 0 ⟨[Event.warnNoMetadata], 0, []⟩ ⟨fname, payload⟩ with
  | none =>
      unfold processZoom processCol
      simp only [Option.bind_eq_bind, Option.some_bind, Option.pure_def,
        List.foldlM_cons, List.foldlM_nil, List.insertionSort, List.orderedInsert,
        h0, hpf]
      simp
  | some st1 =>
      unfold processZoom processCol
      simp only [Option.bind_eq_bind, Option.some_bind, Option.pure_def,
        List.foldlM_cons, List.foldlM_nil, List.insertionSort, List.orderedInsert,
        h0, hpf]
      simp

/-- C5 (amended): during import the row number is obtained by applying plain
`int(...)` to the filename's stem — non-digit characters are NOT stripped from
file stems (unlike zoom and column directory names).  A digit stem parses to
its value and the tile row is inserted; a stem that `int` rejects, such as
`r5`, raises an uncaught `ValueError` that aborts the whole import run. -/
theorem C5_row_parse_amended :
    (∀ (stem : String) (payload : List Nat) (y : Int),
        pyStartsWithDot (stem ++ ".pbf") = false →
        pyInt? stem.data = some y →
        disk_to_mbtiles (oneFileTree "0" "0" (stem ++ ".pbf") payload) none none false
          = some ⟨[Event.warnNoMetadata, Event.insertTile 0 0 y payload, Event.commit],
              1, [⟨0, 0, y, payload⟩], [], "pbf"⟩)
    ∧ (∀ (stem : String) (payload : List Nat),
        pyStartsWithDot (stem ++ ".pbf") = false →
        pyInt? stem.data = none →
        disk_to_mbtiles (oneFileTree "0" "0" (stem ++ ".pbf") payload) none none false
          = none) := by
  constructor
  · intro stem payload y hdot hy
    rw [disk_single (stem ++ ".pbf") payload,
      processFile_pbf_stem 0 0 ⟨[Event.warnNoMetadata], 0, []⟩ stem payload hdot, hy]
    simp
  · intro stem payload hdot hy
    rw [disk_single (stem ++ ".pbf") payload,
      processFile_pbf_stem 0 0 ⟨[Event.warnNoMetadata], 0, []⟩ stem payload hdot, hy]
    rfl


/-- Witness for C5: the file `5.pbf` imports as row 5. -/
theorem C5_row_parse_witness :
    disk_to_mbtiles (oneFileTree "0" "0" ("5" ++ ".pbf") [1]) none none false
      = some ⟨[Event.warnNoMetadata, Event.insertTile 0 0 5 [1], Event.commit],
          1, [⟨0, 0, 5, [1]⟩], [], "pbf"⟩ :=
  C5_row_parse_amended.1 "5" [1] 5 (by decide) (by decide)

/-- C5 counterexample: a file named `r5.pbf` does not import as row 5 the way
`5.pbf` does — the import run aborts with an uncaught `ValueError` instead,
because file stems are not digit-stripped before parsing. -/
theorem C5_counterexample :
    disk_to_mbtiles (oneFileTree "0" "0" "r5.pbf" [1]) none none false = none
    ∧ (disk_to_mbtiles (oneFileTree "0" "0" "5.pbf" [1]) none none false).map
        (fun r => r.tiles) = some [⟨0, 0, 5, [1]⟩] :=
  ⟨by decide, by decide⟩

/-- Witness for C8: a concrete export against an existing destination. -/
theorem C8_export_dest_exists_witness :
    mbtiles_to_disk ⟨[], []⟩ true none none = ⟨false, none, none, []⟩ :=
  C8_export_dest_exists ⟨[], []⟩ none none
